import Mathlib

/-
Verification of nsxfint.py, a tool that derives per-VM NSX feature usage and
the minimum NSX license edition from a tabular usage report.

The Python source is shallowly embedded below.  Python integers are embedded
as `Int`; the Python bitwise AND `&` on arbitrary-precision integers is
two's-complement AND, which is exactly `Int.land`.  Fallible Python
operations (uncaught exceptions such as `ValueError` from `list.index`,
`TypeError` from indexing with NaN) are embedded as `Option`/`Except`
results, where `none`/`.error` means the run dies without producing output.

The pandas calls that merely read delimited text into a table are the
"external collaborator" of the spec; the embedding starts from the raw rows
those calls deliver (`RawVmRow`, `RawCatRow`) and from the raw physical
lines of the input file (for the `skip_rows` pre-pass).
-/

namespace Nsxfint

/-! ## Arithmetic helpers for two's-complement AND -/

theorem ldiff_zero_right (n : Nat) : Nat.ldiff n 0 = n :=
  Nat.eq_of_testBit_eq fun k => by simp [Nat.testBit_ldiff]

theorem ldiff_zero_left (m : Nat) : Nat.ldiff 0 m = 0 :=
  Nat.eq_of_testBit_eq fun k => by simp [Nat.testBit_ldiff]

theorem zero_land_int (n : Int) : Int.land 0 n = 0 := by
  cases n with
  | ofNat m =>
    show Int.land (Int.ofNat 0) (Int.ofNat m) = 0
    unfold Int.land
    simp
  | negSucc m =>
    show Int.land (Int.ofNat 0) (Int.negSucc m) = 0
    unfold Int.land
    simp [ldiff_zero_left]

theorem neg_one_land (n : Nat) : Int.land (-1) (Int.ofNat n) = Int.ofNat n := by
  show Int.land (Int.negSucc 0) (Int.ofNat n) = Int.ofNat n
  unfold Int.land
  simp [ldiff_zero_right]

/-! ## Data model -/

/-- nsxfint.py line 103: the fixed ordered edition list
`editions = ["", "Base", "Professional", "Advanced", "Enterprise Plus"]`. -/
def editions : List String := ["", "Base", "Professional", "Advanced", "Enterprise Plus"]

/-- One row of the feature catalog `nsx_features.csv` after `dropna()`
(nsxfint.py line 94): the columns `NSX Feature Name`, `NSXFINT`, `Edition`. -/
structure Feature where
  feature_name : String
  nsxfint : Int
  edition : String
  deriving DecidableEq

/-- One VM usage record of the report after mask normalization
(nsxfint.py lines 90 and 97): the columns `Name` and `NsxFInt`. -/
structure VM where
  name : String
  nsxFInt : Int
  deriving DecidableEq

/-- A raw catalog cell as pandas delivers it: an empty field parses as NaN,
which `dropna()` then removes.  `toNa` maps the raw text of a cell to its
pandas value, `none` standing for NaN. -/
def toNa (s : String) : Option String := if s = "" then none else some s

/-- One raw row of `nsx_features.csv` as read by `pd.read_csv` on
nsxfint.py line 94: text cells for the name and edition columns, and an
already-numeric bit value that is `none` when the field is missing. -/
structure RawCatRow where
  feature_name : String
  nsxfint : Option Int
  edition : String
  deriving DecidableEq

/-- nsxfint.py line 94: `pd.read_csv("nsx_features.csv").dropna()` — every
row with a missing (NaN) field in any required column is silently dropped;
the surviving rows become `Feature`s in catalog order. -/
def loadCatalog (rows : List RawCatRow) : List Feature :=
  rows.filterMap fun r =>
    match toNa r.feature_name, r.nsxfint, toNa r.edition with
    | some n, some b, some e => some ⟨n, b, e⟩
    | _, _, _ => none

/-- One raw row of the usage report after the tabular parse: the `Name`
cell (already renamed from `#Name` by line 90) and the raw text of the
`NsxFInt` cell, `none` standing for a missing value (NaN). -/
structure RawVmRow where
  name : String
  nsxFInt : Option String
  deriving DecidableEq

/-- Python `int(str)` on an optionally-signed digit string, as invoked by
`astype(int)` on nsxfint.py line 97; `none` models the `ValueError` raised
on a non-integer value. -/
def parseInt (s : String) : Option Int :=
  match s.data with
  | '-' :: cs => (parseNatDigits cs 0).map fun n => -(n : Int)
  | cs => (parseNatDigits cs 0).map fun n => (n : Int)
where
  parseNatDigits : List Char → Nat → Option Nat
    | [], _ => none
    | [c], acc => if c.isDigit then some (acc * 10 + (c.toNat - 48)) else none
    | c :: cs, acc => if c.isDigit then parseNatDigits cs (acc * 10 + (c.toNat - 48)) else none

/-- nsxfint.py line 97:
`vmh_df["NsxFInt"] = vmh_df["NsxFInt"].fillna(0).replace("-", 0).astype(int)` —
a missing value becomes `0`, the exact placeholder `"-"` becomes `0`, and
every other value must parse as an integer (`none` = fatal `ValueError`). -/
def loadVm (r : RawVmRow) : Option VM :=
  match r.nsxFInt with
  | none => some ⟨r.name, 0⟩
  | some s =>
    if s = "-" then some ⟨r.name, 0⟩
    else (parseInt s).map fun n => (⟨r.name, n⟩ : VM)

/-! ## Feature resolution (nsxfint.py lines 103-116) -/

/-- Python `list.index(e)`: the first index of `e`, `none` modelling the
`ValueError` raised when `e` is absent. -/
def listIndex (e : String) : List String → Option Nat
  | [] => none
  | x :: xs => if x = e then some 0 else (listIndex e xs).map (· + 1)

/-- nsxfint.py line 107: `editions.index(row["Edition"])`. -/
def editionIndex (e : String) : Option Nat := listIndex e editions

/-- nsxfint.py lines 105-109, for one VM and one catalog row: the value
stored in the feature's column is `editions.index(edition)` when
`(mask & bit) > 0` and `0` otherwise.  `editions.index` is evaluated
unconditionally (it is an eager argument of `np.where`), so an unknown
edition kills the run even for inactive features. -/
def featRank (mask : Int) (f : Feature) : Option Nat :=
  (editionIndex f.edition).map fun idx =>
    if 0 < Int.land mask f.nsxfint then idx else 0

/-- The column names `main` itself writes into the output frame: `Name`
and `NsxFInt` from line 100 and `NSX Edition` from line 112.  Because the
loop of lines 104-109 assigns feature columns into that same live frame, a
catalog feature bearing one of these names would overwrite the column — a
feature named `NsxFInt` clobbers the mask re-read by line 106 on every
later iteration, one named `Name` destroys the VM-name cells, and one
named `NSX Edition` is overwritten by line 112, blanked by line 113, and
then crashes line 116.  The resolution embedding below models catalogs
avoiding these names; every theorem about it carries that hypothesis. -/
def reservedCols : List String := ["Name", "NsxFInt", "NSX Edition"]

/-- pandas column assignment `df[name] = v`: overwrite the column in place
when `name` already exists, otherwise append it on the right. -/
def setCol (k : String) (v : Nat) : List (String × Nat) → List (String × Nat)
  | [] => [(k, v)]
  | p :: rest => if p.1 = k then (k, v) :: rest else p :: setCol k v rest

/-- pandas column selection `df[name]`. -/
def getCol (d : List (String × Nat)) (k : String) : Option Nat :=
  (d.find? fun p => p.1 == k).map fun p => p.2

/-- The loop of nsxfint.py lines 104-109 restricted to one VM row: each
catalog row in order assigns its feature column.  The source assigns into
the live frame that also holds the `Name` and `NsxFInt` columns, and line
106 re-reads the live `NsxFInt` cell on every iteration; this embedding
keeps the feature columns in a separate accumulator and the mask fixed,
which coincides with the source exactly when no catalog feature bears a
reserved column name (`reservedCols`) — a feature named `NsxFInt` would
overwrite the mask that later iterations read.  Every theorem below that
uses this definition carries that hypothesis. -/
def featColsAux (mask : Int) (acc : List (String × Nat)) : List Feature → Option (List (String × Nat))
  | [] => some acc
  | f :: fs =>
    match featRank mask f with
    | none => none
    | some v => featColsAux mask (setCol f.feature_name v acc) fs

/-- The per-feature rank columns of one VM row after the loop of
nsxfint.py lines 104-109. -/
def featCols (mask : Int) (feats : List Feature) : Option (List (String × Nat)) :=
  featColsAux mask [] feats

/-- `List.mapM` specialised to `Option` (kept first-order so proofs and the
kernel can unfold it): `none` as soon as any element fails. -/
def mapOpt (g : α → Option β) : List α → Option (List β)
  | [] => some []
  | a :: l =>
    match g a, mapOpt g l with
    | some b, some bs => some (b :: bs)
    | _, _ => none

/-- pandas `DataFrame.max(axis=1)` for one row: the maximum over the
selected columns, NaN (`none`) when there are no columns — feeding that NaN
to `editions[x]` on line 116 is a fatal `TypeError`. -/
def rowMax : List Nat → Option Nat
  | [] => none
  | x :: xs => some (xs.foldl Nat.max x)

/-- nsxfint.py line 112 for one VM row:
`nsxfint_df[nsxf_df["NSX Feature Name"]].max(axis=1)` — select the catalog's
feature-name columns (in catalog order, duplicates included) and take the
row maximum. -/
def vmEditionRank (feats : List Feature) (cols : List (String × Nat)) : Option Nat :=
  match mapOpt (fun f => getCol cols f.feature_name) feats with
  | none => none
  | some vals => rowMax vals

/-- The numeric `NSX Edition` cell of one VM row (nsxfint.py line 112,
before the rename of line 116 turns it into an edition name). -/
def nsxEditionRank (feats : List Feature) (vm : VM) : Option Nat :=
  match featCols vm.nsxFInt feats with
  | none => none
  | some cols => vmEditionRank feats cols

/-- nsxfint.py lines 113-115: a positive rank presents as `True` (which
`to_csv` writes as the text `True`), rank `0` presents as the empty cell. -/
def present (v : Nat) : String := if 0 < v then "True" else ""

/-- One serialized output row (nsxfint.py lines 100-119 for a single VM):
the `Name` cell, the `NsxFInt` cell kept from line 100, the presented
feature cells, and the `NSX Edition` name from line 116.  Emitting
`vm.name` and the raw mask unchanged is exact only when no catalog
feature is named after a reserved column (`reservedCols`) — the live
frame would otherwise have them overwritten, or (for a feature named
`NSX Edition`) line 116 would die on a blanked cell; the theorems using
this definition assume `reservedCols` is avoided. -/
def resolveRow (feats : List Feature) (vm : VM) : Option (List String) :=
  match featCols vm.nsxFInt feats with
  | none => none
  | some cols =>
    match vmEditionRank feats cols with
    | none => none
    | some rank =>
      match editions.get? rank with
      | none => none
      | some ed => some (vm.name :: toString vm.nsxFInt :: cols.map (fun p => present p.2) ++ [ed])

/-- Key insertion order of pandas column assignment: a fresh name goes to
the right, an existing name keeps its place. -/
def upsertName (ks : List String) (k : String) : List String :=
  if k ∈ ks then ks else ks ++ [k]

/-- The feature column names of the output frame, in first-assignment
order (nsxfint.py lines 104-109). -/
def featNames (feats : List Feature) : List String :=
  feats.foldl (fun ks f => upsertName ks f.feature_name) []

/-- The header written by `to_csv` (nsxfint.py line 119): the columns of
`nsxfint_df` in insertion order — `Name` and `NsxFInt` from line 100, the
feature columns, then `NSX Edition` from line 112.  Appending the feature
names after `Name`/`NsxFInt` is exact only when no feature bears a
reserved column name (`reservedCols`): the source would overwrite the
existing column instead of adding one.  The theorems using this
definition assume `reservedCols` is avoided. -/
def headerRow (feats : List Feature) : List String :=
  "Name" :: "NsxFInt" :: featNames feats ++ ["NSX Edition"]

/-- The feature loop of nsxfint.py lines 104-109 evaluates
`editions.index(row["Edition"])` for every catalog row, whatever the VM
rows are; one unknown edition is an uncaught `ValueError`. -/
def catalogIdxs (feats : List Feature) : Option (List Nat) :=
  mapOpt (fun f => editionIndex f.edition) feats

/-- nsxfint.py lines 100-119: the full serialized output table (header row
then one row per VM), `none` when the run dies before `to_csv`.  Inherits
the domain restriction of `featColsAux`/`resolveRow`/`headerRow`: exact
for catalogs with no feature named after a reserved column
(`reservedCols`); theorems about non-degenerate catalogs carry that
hypothesis, while the empty-catalog and bad-edition facts (C5, C9) hold
outside it as well. -/
def serializeTable (vms : List VM) (feats : List Feature) : Option (List (List String)) :=
  match catalogIdxs feats with
  | none => none
  | some _ =>
    match mapOpt (resolveRow feats) vms with
    | none => none
    | some rows => some (headerRow feats :: rows)

/-! ## Input checks, row skipping, delimiter choice -/

/-- nsxfint.py line 84: the recognized input extensions `[".csv", ".tsv"]`. -/
def validSuffixes : List String := [".csv", ".tsv"]

/-- Python `len(line.split("\t"))`: for the one-character separator `"\t"`
this is the number of tab characters plus one. -/
def tabSplitCount (s : String) : Nat := s.data.count '\t' + 1

/-- nsxfint.py lines 66-74 (`skip_rows`): a physical line is marked for
skipping exactly when `len(line.split("\t")) == 1`, i.e. when it contains
no tab character at all. -/
def skipRowsAux (i : Nat) : List String → List Nat
  | [] => []
  | line :: rest =>
    if tabSplitCount line = 1 then i :: skipRowsAux (i + 1) rest
    else skipRowsAux (i + 1) rest

/-- nsxfint.py lines 66-74: the list of skipped physical line numbers. -/
def skip_rows (lines : List String) : List Nat := skipRowsAux 0 lines

/-- nsxfint.py line 89: `pd.read_csv(args.input, sep="\t", ...)` — the
field separator passed to the tabular parser is `"\t"` for every input,
whatever its extension. -/
def inputSep (_ext : String) : String := "\t"

/-- Modelled from the spec: "delimited text (tab-delimited for `.tsv`,
comma-delimited for `.csv`)" — the delimiter the spec says is selected by
extension.  Not present in src/nsxfint.py; written only to be compared
with `inputSep`. -/
def specSep (ext : String) : String := if ext = ".tsv" then "\t" else ","

/-- Modelled from the spec: "the table's modal delimiter count" of the
row-skip property — the most frequent per-line delimiter count.  Not
present in src/nsxfint.py; written only to be compared with `skip_rows`. -/
def modalTabCount (lines : List String) : Nat :=
  let counts := lines.map fun l => tabSplitCount l - 1
  (counts.argmax fun c => counts.count c).getD 0

/-! ## The whole program -/

/-- Everything `main` (nsxfint.py lines 78-119) needs from the world:
whether the input path exists, its extension, and the raw tabular rows the
pandas reads deliver. -/
structure ProgInput where
  path : String
  fileExists : Bool
  suffix : String
  vmRows : List RawVmRow
  catRows : List RawCatRow

/-- nsxfint.py lines 78-119 (`main`): the early fatal checks of lines
82-85 (a `FATAL:` log line then `exit(1)`), then mask normalization,
feature resolution and serialization.  `.error` means the process ends
with a non-zero status and no output file is written. -/
def main (inp : ProgInput) : Except String (List (List String)) :=
  if inp.fileExists = false then
    Except.error ("FATAL: Input file " ++ inp.path ++ " does not exist.")
  else if inp.suffix ∈ validSuffixes then
    match mapOpt loadVm inp.vmRows with
    | none => Except.error "ValueError: invalid NsxFInt value"
    | some vms =>
      match serializeTable vms (loadCatalog inp.catRows) with
      | none => Except.error "unhandled exception during feature resolution"
      | some out => Except.ok out
  else
    Except.error ("FATAL: Input file " ++ inp.path ++ " is not CSV or TSV.")

/-- Whether the run produced an output table. -/
def isOkRun : Except String (List (List String)) → Bool
  | Except.ok _ => true
  | Except.error _ => false

/-! ## Supporting lemmas -/

/-- Total counterpart of `featRank`, used in theorem statements: the rank a
feature contributes to a VM — its edition's index in `editions` when the
feature is active (`usage_mask AND bit_value > 0`), `0` otherwise. -/
def featRankD (mask : Int) (f : Feature) : Nat :=
  if 0 < Int.land mask f.nsxfint then (editionIndex f.edition).getD 0 else 0

theorem listIndex_lt_length {e : String} {l : List String} {i : Nat}
    (h : listIndex e l = some i) : i < l.length := by
  induction l generalizing i with
  | nil => simp [listIndex] at h
  | cons x xs ih =>
    by_cases hx : x = e
    · simp [listIndex, hx] at h
      simp only [List.length_cons]
      omega
    · simp only [listIndex, if_neg hx, Option.map_eq_some'] at h
      obtain ⟨j, hj, hji⟩ := h
      have := ih hj
      simp only [List.length_cons]
      omega

theorem listIndex_of_mem {e : String} {l : List String} (h : e ∈ l) :
    ∃ i, listIndex e l = some i := by
  induction l with
  | nil => cases h
  | cons x xs ih =>
    by_cases hx : x = e
    · exact ⟨0, by simp [listIndex, hx]⟩
    · have hxs : e ∈ xs := by
        rcases List.mem_cons.mp h with h1 | h1
        · exact absurd h1.symm hx
        · exact h1
      obtain ⟨i, hi⟩ := ih hxs
      exact ⟨i + 1, by simp [listIndex, hx, hi]⟩

theorem listIndex_of_not_mem {e : String} {l : List String} (h : e ∉ l) :
    listIndex e l = none := by
  induction l with
  | nil => rfl
  | cons x xs ih =>
    have hx : ¬ x = e := fun he => h (he ▸ List.mem_cons_self x xs)
    have hxs : e ∉ xs := fun he => h (List.mem_cons_of_mem x he)
    simp [listIndex, hx, ih hxs]

theorem featRank_eq {mask : Int} {f : Feature} (h : f.edition ∈ editions) :
    featRank mask f = some (featRankD mask f) := by
  obtain ⟨i, hi⟩ := listIndex_of_mem h
  simp [featRank, featRankD, editionIndex, hi]

theorem featRankD_lt {mask : Int} {f : Feature} (h : f.edition ∈ editions) :
    featRankD mask f < editions.length := by
  obtain ⟨i, hi⟩ := listIndex_of_mem h
  have hlt := listIndex_lt_length hi
  unfold featRankD editionIndex
  rw [hi]
  split
  · simpa using hlt
  · simp [editions]

theorem featRankD_zero_mask (f : Feature) : featRankD 0 f = 0 := by
  unfold featRankD
  rw [zero_land_int, if_neg (lt_irrefl (0 : Int))]

theorem one_le_editionIndex {e : String} (h : e ∈ editions) (hne : e ≠ "") :
    ∃ i, editionIndex e = some i ∧ 1 ≤ i := by
  have h5 : e = "" ∨ e = "Base" ∨ e = "Professional" ∨ e = "Advanced" ∨
      e = "Enterprise Plus" := by simpa [editions] using h
  rcases h5 with h1 | h1 | h1 | h1 | h1
  · exact absurd h1 hne
  · exact h1 ▸ ⟨1, by decide, by decide⟩
  · exact h1 ▸ ⟨2, by decide, by decide⟩
  · exact h1 ▸ ⟨3, by decide, by decide⟩
  · exact h1 ▸ ⟨4, by decide, by decide⟩

theorem loadCatalog_edition_ne_empty {rows : List RawCatRow} {f : Feature}
    (h : f ∈ loadCatalog rows) : f.edition ≠ "" := by
  unfold loadCatalog at h
  rw [List.mem_filterMap] at h
  obtain ⟨r, _, hr⟩ := h
  unfold toNa at hr
  by_cases h1 : r.feature_name = "" <;> by_cases h3 : r.edition = "" <;>
    cases h2 : r.nsxfint <;> simp [h1, h2, h3] at hr
  rw [← hr]
  exact h3

theorem setCol_append {k : String} {v : Nat} {acc : List (String × Nat)}
    (h : k ∉ acc.map Prod.fst) : setCol k v acc = acc ++ [(k, v)] := by
  induction acc with
  | nil => rfl
  | cons p rest ih =>
    simp only [List.map_cons, List.mem_cons] at h
    push_neg at h
    have hne : ¬ p.1 = k := fun he => h.1 he.symm
    simp only [setCol, if_neg hne, List.cons_append]
    rw [ih h.2]

theorem featColsAux_eq {mask : Int} {feats : List Feature} :
    ∀ {acc : List (String × Nat)},
    (∀ f ∈ feats, f.edition ∈ editions) →
    (feats.map Feature.feature_name).Nodup →
    (∀ f ∈ feats, f.feature_name ∉ acc.map Prod.fst) →
    featColsAux mask acc feats =
      some (acc ++ feats.map fun f => (f.feature_name, featRankD mask f)) := by
  induction feats with
  | nil =>
    intro acc _ _ _
    simp [featColsAux]
  | cons f fs ih =>
    intro acc hval hnd hacc
    have hf : featRank mask f = some (featRankD mask f) :=
      featRank_eq (hval f (List.mem_cons_self f fs))
    have hnd' := List.nodup_cons.mp hnd
    have hset : setCol f.feature_name (featRankD mask f) acc =
        acc ++ [(f.feature_name, featRankD mask f)] :=
      setCol_append (hacc f (List.mem_cons_self f fs))
    have hacc' : ∀ g ∈ fs, g.feature_name ∉
        (acc ++ [(f.feature_name, featRankD mask f)]).map Prod.fst := by
      intro g hg
      rw [List.map_append, List.mem_append]
      push_neg
      refine ⟨hacc g (List.mem_cons_of_mem f hg), ?_⟩
      simp only [List.map_cons, List.map_nil, List.mem_singleton]
      intro he
      exact hnd'.1 (he ▸ List.mem_map.mpr ⟨g, hg, rfl⟩)
    simp only [featColsAux, hf, hset]
    rw [ih (fun g hg => hval g (List.mem_cons_of_mem f hg)) hnd'.2 hacc']
    simp [List.append_assoc]

theorem featCols_eq {mask : Int} {feats : List Feature}
    (hval : ∀ f ∈ feats, f.edition ∈ editions)
    (hnd : (feats.map Feature.feature_name).Nodup) :
    featCols mask feats =
      some (feats.map fun f => (f.feature_name, featRankD mask f)) := by
  unfold featCols
  simpa using featColsAux_eq hval hnd (by simp)

theorem getCol_map {feats : List Feature} {rk : Feature → Nat} {f : Feature}
    (hnd : (feats.map Feature.feature_name).Nodup) (hf : f ∈ feats) :
    getCol (feats.map fun g => (g.feature_name, rk g)) f.feature_name = some (rk f) := by
  induction feats with
  | nil => cases hf
  | cons g gs ih =>
    have hnd' := List.nodup_cons.mp hnd
    rcases List.mem_cons.mp hf with h1 | h1
    · subst h1
      simp [getCol, List.find?]
    · have hne : (g.feature_name == f.feature_name) = false := by
        simp only [beq_eq_false_iff_ne, ne_eq]
        intro he
        exact hnd'.1 (he ▸ List.mem_map.mpr ⟨f, h1, rfl⟩)
      simp only [getCol, List.map_cons, List.find?, hne]
      exact ih hnd'.2 h1

theorem mapOpt_eq_map {α β : Type _} {g : α → Option β} {h : α → β} {l : List α}
    (hl : ∀ a ∈ l, g a = some (h a)) : mapOpt g l = some (l.map h) := by
  induction l with
  | nil => rfl
  | cons a as ih =>
    simp only [mapOpt, hl a (List.mem_cons_self a as),
      ih fun b hb => hl b (List.mem_cons_of_mem a hb), List.map_cons]

theorem mapOpt_eq_none {α β : Type _} {g : α → Option β} {a : α} {l : List α}
    (hmem : a ∈ l) (hga : g a = none) : mapOpt g l = none := by
  induction l with
  | nil => cases hmem
  | cons b bs ih =>
    rcases List.mem_cons.mp hmem with h1 | h1
    · subst h1
      simp [mapOpt, hga]
    · cases hgb : g b <;> simp [mapOpt, hgb, ih h1]

theorem natMax_assoc (a b c : Nat) :
    Nat.max (Nat.max a b) c = Nat.max a (Nat.max b c) :=
  max_assoc a b c

theorem natMax_eq_right {a b : Nat} (h : a ≤ b) : Nat.max a b = b :=
  max_eq_right h

theorem natMax_eq_left {a b : Nat} (h : b ≤ a) : Nat.max a b = a :=
  max_eq_left h

theorem foldl_max_eq {xs : List Nat} : ∀ {x : Nat},
    xs.foldl Nat.max x = Nat.max x (xs.foldr Nat.max 0) := by
  induction xs with
  | nil =>
    intro x
    simp
  | cons y ys ih =>
    intro x
    simp only [List.foldl_cons, List.foldr_cons]
    rw [ih, natMax_assoc]

theorem rowMax_eq {l : List Nat} (h : l ≠ []) :
    rowMax l = some (l.foldr Nat.max 0) := by
  cases l with
  | nil => exact absurd rfl h
  | cons x xs =>
    simp only [rowMax, List.foldr_cons]
    rw [foldl_max_eq]

theorem le_foldr_max {l : List Nat} {v : Nat} (h : v ∈ l) :
    v ≤ l.foldr Nat.max 0 := by
  induction l with
  | nil => cases h
  | cons x xs ih =>
    simp only [List.foldr_cons]
    rcases List.mem_cons.mp h with h1 | h1
    · subst h1
      exact Nat.le_max_left _ _
    · exact Nat.le_trans (ih h1) (Nat.le_max_right _ _)

theorem foldr_max_mem {l : List Nat} :
    l.foldr Nat.max 0 = 0 ∨ l.foldr Nat.max 0 ∈ l := by
  induction l with
  | nil => exact Or.inl rfl
  | cons x xs ih =>
    simp only [List.foldr_cons]
    rcases Nat.le_total x (xs.foldr Nat.max 0) with h | h
    · rw [natMax_eq_right h]
      rcases ih with h1 | h1
      · exact Or.inl h1
      · exact Or.inr (List.mem_cons_of_mem x h1)
    · rw [natMax_eq_left h]
      exact Or.inr (List.mem_cons_self x xs)

theorem foldr_max_lt {l : List Nat} {n : Nat} (hn : 0 < n)
    (h : ∀ v ∈ l, v < n) : l.foldr Nat.max 0 < n := by
  induction l with
  | nil => simpa
  | cons x xs ih =>
    simp only [List.foldr_cons]
    exact Nat.max_lt.mpr ⟨h x (List.mem_cons_self x xs),
      ih fun v hv => h v (List.mem_cons_of_mem x hv)⟩

theorem foldr_max_zero {l : List Nat} (h : ∀ v ∈ l, v = 0) :
    l.foldr Nat.max 0 = 0 := by
  induction l with
  | nil => rfl
  | cons x xs ih =>
    simp only [List.foldr_cons]
    rw [h x (List.mem_cons_self x xs), ih fun v hv => h v (List.mem_cons_of_mem x hv)]
    decide

theorem get?_eq_getD {l : List String} {n : Nat} (h : n < l.length) :
    l.get? n = some (l.getD n "") := by
  rw [List.getD_eq_get? l n "", List.get?_eq_get h]
  rfl

theorem map_congr_mem {α β : Type _} {l : List α} {f g : α → β}
    (h : ∀ a ∈ l, f a = g a) : l.map f = l.map g := by
  induction l with
  | nil => rfl
  | cons x xs ih =>
    simp only [List.map_cons]
    rw [h x (List.mem_cons_self x xs), ih fun a ha => h a (List.mem_cons_of_mem x ha)]

theorem featNames_aux {feats : List Feature} : ∀ {ks : List String},
    (feats.map Feature.feature_name).Nodup →
    (∀ f ∈ feats, f.feature_name ∉ ks) →
    feats.foldl (fun ks f => upsertName ks f.feature_name) ks =
      ks ++ feats.map Feature.feature_name := by
  induction feats with
  | nil =>
    intro ks _ _
    simp
  | cons f fs ih =>
    intro ks hnd hks
    have hnd' := List.nodup_cons.mp hnd
    simp only [List.foldl_cons]
    rw [show upsertName ks f.feature_name = ks ++ [f.feature_name] from
      by rw [upsertName, if_neg (hks f (List.mem_cons_self f fs))]]
    rw [ih hnd'.2 ?hks']
    · simp [List.append_assoc]
    case hks' =>
      intro g hg
      rw [List.mem_append]
      push_neg
      refine ⟨hks g (List.mem_cons_of_mem f hg), ?_⟩
      simp only [List.mem_singleton]
      intro he
      exact hnd'.1 (he ▸ List.mem_map.mpr ⟨g, hg, rfl⟩)

theorem featNames_eq {feats : List Feature}
    (hnd : (feats.map Feature.feature_name).Nodup) :
    featNames feats = feats.map Feature.feature_name := by
  unfold featNames
  simpa using featNames_aux hnd (by simp)

/-- The shape of one resolved output row under the catalog invariants of
the spec: every edition recognized, feature names catalog-unique and
distinct from the reserved output columns (`reservedCols`, where the
embedding is exact — see `featColsAux`/`resolveRow`), and at least one
feature column (the run dies otherwise, see C5/C9). -/
theorem resolveRow_eq {feats : List Feature} {vm : VM}
    (hval : ∀ f ∈ feats, f.edition ∈ editions)
    (hnd : (feats.map Feature.feature_name).Nodup)
    (hne : feats ≠ [])
    (_hres : ∀ f ∈ feats, f.feature_name ∉ reservedCols) :
    resolveRow feats vm = some (vm.name :: toString vm.nsxFInt ::
        feats.map (fun f => present (featRankD vm.nsxFInt f)) ++
        [editions.getD ((feats.map (featRankD vm.nsxFInt)).foldr Nat.max 0) ""]) ∧
    nsxEditionRank feats vm =
      some ((feats.map (featRankD vm.nsxFInt)).foldr Nat.max 0) := by
  have hcols := @featCols_eq vm.nsxFInt feats hval hnd
  have hm : mapOpt (fun f =>
      getCol (feats.map fun g => (g.feature_name, featRankD vm.nsxFInt g)) f.feature_name)
      feats = some (feats.map fun f => featRankD vm.nsxFInt f) :=
    mapOpt_eq_map fun f hf => getCol_map hnd hf
  have hmapne : feats.map (featRankD vm.nsxFInt) ≠ [] := by
    cases feats with
    | nil => exact absurd rfl hne
    | cons f fs => simp
  have hrank : vmEditionRank feats
      (feats.map fun g => (g.feature_name, featRankD vm.nsxFInt g)) =
      some ((feats.map (featRankD vm.nsxFInt)).foldr Nat.max 0) := by
    unfold vmEditionRank
    rw [hm]
    exact rowMax_eq hmapne
  have hlt : (feats.map (featRankD vm.nsxFInt)).foldr Nat.max 0 < editions.length := by
    apply foldr_max_lt (by simp [editions])
    intro v hv
    obtain ⟨f, hf, rfl⟩ := List.mem_map.mp hv
    exact featRankD_lt (hval f hf)
  have hed := get?_eq_getD hlt
  constructor
  · simp only [resolveRow, hcols, hrank, hed, List.map_map]
    rfl
  · simp only [nsxEditionRank, hcols, hrank]

/-- The shape of the whole serialized output table under the same catalog
invariants, including the reserved-column restriction. -/
theorem serializeTable_eq {vms : List VM} {feats : List Feature}
    (hval : ∀ f ∈ feats, f.edition ∈ editions)
    (hnd : (feats.map Feature.feature_name).Nodup)
    (hne : feats ≠ [])
    (hres : ∀ f ∈ feats, f.feature_name ∉ reservedCols) :
    serializeTable vms feats = some (
      ("Name" :: "NsxFInt" :: feats.map Feature.feature_name ++ ["NSX Edition"]) ::
      vms.map fun vm => vm.name :: toString vm.nsxFInt ::
        feats.map (fun f => present (featRankD vm.nsxFInt f)) ++
        [editions.getD ((feats.map (featRankD vm.nsxFInt)).foldr Nat.max 0) ""]) := by
  have hidx : catalogIdxs feats =
      some (feats.map fun f => (editionIndex f.edition).getD 0) := by
    apply mapOpt_eq_map
    intro f hf
    obtain ⟨i, hi⟩ := listIndex_of_mem (hval f hf)
    simp [editionIndex, hi]
  have hrows : mapOpt (resolveRow feats) vms =
      some (vms.map fun vm => vm.name :: toString vm.nsxFInt ::
        feats.map (fun f => present (featRankD vm.nsxFInt f)) ++
        [editions.getD ((feats.map (featRankD vm.nsxFInt)).foldr Nat.max 0) ""]) :=
    mapOpt_eq_map fun vm _ => (resolveRow_eq hval hnd hne hres).1
  have hhdr : headerRow feats =
      "Name" :: "NsxFInt" :: feats.map Feature.feature_name ++ ["NSX Edition"] := by
    unfold headerRow
    rw [featNames_eq hnd]
  simp only [serializeTable, hidx, hrows, hhdr]

theorem skipRowsAux_mem {j : Nat} {ls : List String} : ∀ {i : Nat},
    (j ∈ skipRowsAux i ls ↔
      ∃ k, k < ls.length ∧ j = i + k ∧ tabSplitCount (ls.getD k "") = 1) := by
  induction ls with
  | nil =>
    intro i
    simp [skipRowsAux]
  | cons l rest ih =>
    intro i
    by_cases hc : tabSplitCount l = 1
    · simp only [skipRowsAux, if_pos hc]
      constructor
      · intro hm
        rcases List.mem_cons.mp hm with h1 | h1
        · exact ⟨0, by simp, by omega, by simpa using hc⟩
        · obtain ⟨k, hk, hjk, hkc⟩ := ih.mp h1
          refine ⟨k + 1, by simp only [List.length_cons]; omega, by omega, ?_⟩
          simpa using hkc
      · rintro ⟨k, hk, hjk, hkc⟩
        cases k with
        | zero =>
          apply List.mem_cons.mpr
          exact Or.inl (by omega)
        | succ k' =>
          apply List.mem_cons.mpr
          refine Or.inr (ih.mpr ⟨k', ?_, by omega, ?_⟩)
          · simp only [List.length_cons] at hk
            omega
          · simpa using hkc
    · simp only [skipRowsAux, if_neg hc]
      constructor
      · intro hm
        obtain ⟨k, hk, hjk, hkc⟩ := ih.mp hm
        refine ⟨k + 1, by simp only [List.length_cons]; omega, by omega, ?_⟩
        simpa using hkc
      · rintro ⟨k, hk, hjk, hkc⟩
        cases k with
        | zero =>
          simp only [List.getD_cons_zero] at hkc
          exact absurd hkc hc
        | succ k' =>
          refine ih.mpr ⟨k', ?_, by omega, ?_⟩
          · simp only [List.length_cons] at hk
            omega
          · simpa using hkc

theorem skipRowsAux_nil_of_no_hit {ls : List String} : ∀ {i : Nat},
    (∀ l ∈ ls, tabSplitCount l ≠ 1) → skipRowsAux i ls = [] := by
  induction ls with
  | nil =>
    intro i _
    rfl
  | cons l rest ih =>
    intro i h
    simp only [skipRowsAux, if_neg (h l (List.mem_cons_self l rest))]
    exact ih fun m hm => h m (List.mem_cons_of_mem l hm)

/-! ## The claims -/

/-- C1: for every VM record, under the spec's catalog invariants (every
edition recognized, feature names catalog-unique and none of them a
reserved output column — a feature named `NsxFInt` would overwrite the
live mask that line 106 re-reads — and at least one feature column; C5
and C9 treat the runs violating the edition/nonempty invariants), the
resolved edition rank (the numeric `NSX Edition` cell of line 112) equals
the maximum, over all catalog features, of the feature's edition rank
when active and `0` otherwise (`featRankD`); that maximum dominates every
feature's contribution and is attained whenever it is positive — so the
maximum rank wins regardless of catalog processing order — and the
emitted edition name is the element of `editions` at that rank index. -/
theorem C1_edition_rank_is_max (feats : List Feature) (vm : VM)
    (hval : ∀ f ∈ feats, f.edition ∈ editions)
    (hnd : (feats.map Feature.feature_name).Nodup)
    (hne : feats ≠ [])
    (hres : ∀ f ∈ feats, f.feature_name ∉ reservedCols) :
    nsxEditionRank feats vm =
      some ((feats.map (featRankD vm.nsxFInt)).foldr Nat.max 0) ∧
    (∀ f ∈ feats,
      featRankD vm.nsxFInt f ≤ (feats.map (featRankD vm.nsxFInt)).foldr Nat.max 0) ∧
    ((feats.map (featRankD vm.nsxFInt)).foldr Nat.max 0 = 0 ∨
      ∃ f ∈ feats,
        featRankD vm.nsxFInt f = (feats.map (featRankD vm.nsxFInt)).foldr Nat.max 0) ∧
    resolveRow feats vm = some (vm.name :: toString vm.nsxFInt ::
      feats.map (fun f => present (featRankD vm.nsxFInt f)) ++
      [editions.getD ((feats.map (featRankD vm.nsxFInt)).foldr Nat.max 0) ""]) := by
  obtain ⟨hrow, hrank⟩ := resolveRow_eq hval hnd hne hres
  refine ⟨hrank, ?_, ?_, hrow⟩
  · intro f hf
    exact le_foldr_max (List.mem_map.mpr ⟨f, hf, rfl⟩)
  · rcases @foldr_max_mem (feats.map (featRankD vm.nsxFInt)) with h | h
    · exact Or.inl h
    · obtain ⟨f, hf, he⟩ := List.mem_map.mp h
      exact Or.inr ⟨f, hf, he⟩

/-- C1 witness: Scenario 3 of the spec — bits 1 (`Base`) and 2
(`Enterprise Plus`) both set in mask 3; the max rank 4 wins and the
emitted edition is `Enterprise Plus`. -/
theorem C1_edition_rank_is_max_witness :
    nsxEditionRank [⟨"FeatA", 1, "Base"⟩, ⟨"FeatB", 2, "Enterprise Plus"⟩] ⟨"vm3", 3⟩ =
      some 4 ∧
    resolveRow [⟨"FeatA", 1, "Base"⟩, ⟨"FeatB", 2, "Enterprise Plus"⟩] ⟨"vm3", 3⟩ =
      some ["vm3", "3", "True", "True", "Enterprise Plus"] := by
  have h := C1_edition_rank_is_max [⟨"FeatA", 1, "Base"⟩, ⟨"FeatB", 2, "Enterprise Plus"⟩]
      ⟨"vm3", 3⟩ (by decide) (by decide) (by decide) (by decide)
  exact ⟨h.1.trans (by decide), h.2.2.2.trans (by decide)⟩

/-- C2: for every VM record and every catalog feature (a feature actually
loaded from the raw catalog, so its fields survived `dropna`, with a
recognized edition, inside a well-formed catalog — names catalog-unique
and none a reserved output column, which would corrupt the live mask the
activation test reads), the feature's output cell is the active marker
`True` iff `usage_mask AND bit_value > 0`; in particular a feature whose
`bit_value` bits are fully absent from the mask presents as blank.  The
first conjunct places those cells in the emitted row. -/
theorem C2_marked_active_iff (rows : List RawCatRow) (feats : List Feature) (vm : VM)
    (hcat : feats = loadCatalog rows)
    (hval : ∀ f ∈ feats, f.edition ∈ editions)
    (hnd : (feats.map Feature.feature_name).Nodup)
    (hne : feats ≠ [])
    (hres : ∀ f ∈ feats, f.feature_name ∉ reservedCols) :
    resolveRow feats vm = some (vm.name :: toString vm.nsxFInt ::
      feats.map (fun f => present (featRankD vm.nsxFInt f)) ++
      [editions.getD ((feats.map (featRankD vm.nsxFInt)).foldr Nat.max 0) ""]) ∧
    ∀ f ∈ feats,
      (present (featRankD vm.nsxFInt f) = "True" ↔ 0 < Int.land vm.nsxFInt f.nsxfint) ∧
      (Int.land vm.nsxFInt f.nsxfint = 0 → present (featRankD vm.nsxFInt f) = "") := by
  refine ⟨(resolveRow_eq hval hnd hne hres).1, ?_⟩
  intro f hf
  have hmem : f.edition ∈ editions := hval f hf
  have hnee : f.edition ≠ "" := loadCatalog_edition_ne_empty (hcat ▸ hf)
  obtain ⟨i, hi, h1i⟩ := one_le_editionIndex hmem hnee
  refine ⟨⟨?_, ?_⟩, ?_⟩
  · intro hp
    by_contra hneg
    have hz : featRankD vm.nsxFInt f = 0 := by
      unfold featRankD
      rw [if_neg hneg]
    rw [hz] at hp
    exact absurd hp (by decide)
  · intro hpos
    have hv : featRankD vm.nsxFInt f = i := by
      unfold featRankD
      rw [if_pos hpos, hi]
      rfl
    rw [hv]
    unfold present
    rw [if_pos (by omega)]
  · intro hz
    have hv : featRankD vm.nsxFInt f = 0 := by
      unfold featRankD
      rw [hz, if_neg (lt_irrefl (0 : Int))]
    rw [hv]
    rfl

/-- C2 witness: Scenario 1 of the spec — one catalog feature
`Micro-segmentation` with bit 4 and edition `Advanced`, VM mask 4. -/
theorem C2_marked_active_iff_witness :
    resolveRow (loadCatalog [⟨"Micro-segmentation", some 4, "Advanced"⟩]) ⟨"vm1", 4⟩ =
      some ["vm1", "4", "True", "Advanced"] ∧
    (present (featRankD 4 ⟨"Micro-segmentation", 4, "Advanced"⟩) = "True" ↔
      0 < Int.land 4 4) := by
  have h := C2_marked_active_iff [⟨"Micro-segmentation", some 4, "Advanced"⟩]
      (loadCatalog [⟨"Micro-segmentation", some 4, "Advanced"⟩]) ⟨"vm1", 4⟩ rfl
      (by decide) (by decide) (by decide) (by decide)
  refine ⟨h.1.trans (by decide), ?_⟩
  exact (h.2 ⟨"Micro-segmentation", 4, "Advanced"⟩ (by decide)).1

/-- C3: a missing usage-bitmask cell and the placeholder `"-"` both
normalize to mask `0` at load time (line 97), and a VM whose mask is `0`
gets a blank cell in every feature column and the empty-string edition
(under the catalog invariants needed for the run to emit rows at all:
recognized editions, at least one feature, names catalog-unique and none
a reserved output column — a feature named `NSX Edition` would be blanked
by line 113 and crash line 116 instead of letting a row out). -/
theorem C3_zero_mask (feats : List Feature)
    (hval : ∀ f ∈ feats, f.edition ∈ editions)
    (hnd : (feats.map Feature.feature_name).Nodup)
    (hne : feats ≠ [])
    (hres : ∀ f ∈ feats, f.feature_name ∉ reservedCols) :
    (∀ nm : String, loadVm ⟨nm, none⟩ = some ⟨nm, 0⟩) ∧
    (∀ nm : String, loadVm ⟨nm, some "-"⟩ = some ⟨nm, 0⟩) ∧
    ∀ vm : VM, vm.nsxFInt = 0 →
      resolveRow feats vm = some (vm.name :: toString vm.nsxFInt ::
        feats.map (fun _ => "") ++ [""]) := by
  refine ⟨fun nm => rfl, fun nm => rfl, ?_⟩
  intro vm hz
  rw [(resolveRow_eq hval hnd hne hres).1]
  have hcell : feats.map (fun f => present (featRankD vm.nsxFInt f)) =
      feats.map (fun _ => "") := by
    apply map_congr_mem
    intro f _
    rw [hz, featRankD_zero_mask]
    rfl
  have hrank : (feats.map (featRankD vm.nsxFInt)).foldr Nat.max 0 = 0 := by
    apply foldr_max_zero
    intro v hv
    obtain ⟨f, _, rfl⟩ := List.mem_map.mp hv
    rw [hz, featRankD_zero_mask]
  rw [hcell, hrank]
  rfl

/-- C3 witness: Scenarios 2 and 4 of the spec — a missing mask and the
placeholder `"-"` load as `0`, and the zero-mask VM resolves to all-blank
features and the empty edition. -/
theorem C3_zero_mask_witness :
    loadVm ⟨"vm2", none⟩ = some ⟨"vm2", 0⟩ ∧
    loadVm ⟨"vm4", some "-"⟩ = some ⟨"vm4", 0⟩ ∧
    resolveRow [⟨"Micro-segmentation", 4, "Advanced"⟩] ⟨"vm2", 0⟩ =
      some ["vm2", "0", "", ""] := by
  have h := C3_zero_mask [⟨"Micro-segmentation", 4, "Advanced"⟩]
      (by decide) (by decide) (by decide) (by decide)
  exact ⟨h.1 "vm2", h.2.1 "vm4", (h.2.2 ⟨"vm2", 0⟩ rfl).trans (by decide)⟩

/-- C4 counterexample: with the Scenario-1 catalog and VM, the emitted
header has FOUR columns — `Name`, the raw `NsxFInt` mask column kept from
line 100, the feature column, `NSX Edition` — not the three the claim
allows, and the raw mask value `"4"` appears in the data row as well. -/
theorem C4_counterexample :
    serializeTable [⟨"vm1", 4⟩] [⟨"Micro-segmentation", 4, "Advanced"⟩] =
      some [["Name", "NsxFInt", "Micro-segmentation", "NSX Edition"],
        ["vm1", "4", "True", "Advanced"]] ∧
    headerRow [⟨"Micro-segmentation", 4, "Advanced"⟩] ≠
      ["Name", "Micro-segmentation", "NSX Edition"] := by
  exact ⟨by decide, by decide⟩

/-- C4 amended: the output columns are exactly the VM name, the raw
`NsxFInt` mask kept from line 100, one column per catalog feature in
catalog order, then the edition column — for catalogs with the data-model
invariants (recognized editions, at least one feature) whose feature
names are catalog-unique and distinct from the reserved column names
`Name`/`NsxFInt`/`NSX Edition` (a reserved-named feature would overwrite
the existing column instead of adding one); each feature cell is the
`True` marker when the feature's rank is positive and blank when it is
`0`. -/
theorem C4_amended_columns (vms : List VM) (feats : List Feature)
    (hval : ∀ f ∈ feats, f.edition ∈ editions)
    (hnd : (feats.map Feature.feature_name).Nodup)
    (hne : feats ≠ [])
    (hres : ∀ f ∈ feats, f.feature_name ∉ reservedCols) :
    serializeTable vms feats = some (
      ("Name" :: "NsxFInt" :: feats.map Feature.feature_name ++ ["NSX Edition"]) ::
      vms.map fun vm => vm.name :: toString vm.nsxFInt ::
        feats.map (fun f => present (featRankD vm.nsxFInt f)) ++
        [editions.getD ((feats.map (featRankD vm.nsxFInt)).foldr Nat.max 0) ""]) ∧
    ∀ (mask : Int) (f : Feature),
      (0 < featRankD mask f → present (featRankD mask f) = "True") ∧
      (featRankD mask f = 0 → present (featRankD mask f) = "") := by
  refine ⟨serializeTable_eq hval hnd hne hres, ?_⟩
  intro mask f
  constructor
  · intro h
    unfold present
    rw [if_pos h]
  · intro h
    rw [h]
    rfl

/-- C4 amended witness: a one-feature catalog and one VM produce the
four-column table concretely. -/
theorem C4_amended_columns_witness :
    serializeTable [⟨"vmA", 1⟩] [⟨"Switching", 1, "Base"⟩] =
      some [["Name", "NsxFInt", "Switching", "NSX Edition"],
        ["vmA", "1", "True", "Base"]] := by
  have h := C4_amended_columns [⟨"vmA", 1⟩] [⟨"Switching", 1, "Base"⟩]
      (by decide) (by decide) (by decide) (by decide)
  exact h.1.trans (by decide)

/-- C5: a catalog feature whose edition is outside the fixed list makes
`editions.index` fail inside the feature loop, so the run dies before
`to_csv`: `main` never returns an output table, whatever the VM rows. -/
theorem C5_unknown_edition_aborts (inp : ProgInput) (f : Feature)
    (hf : f ∈ loadCatalog inp.catRows) (hbad : f.edition ∉ editions) :
    isOkRun (main inp) = false := by
  have hidx : editionIndex f.edition = none := listIndex_of_not_mem hbad
  have hcat : catalogIdxs (loadCatalog inp.catRows) = none :=
    mapOpt_eq_none hf hidx
  have hser : ∀ vms, serializeTable vms (loadCatalog inp.catRows) = none := by
    intro vms
    unfold serializeTable
    rw [hcat]
  unfold main
  by_cases h1 : inp.fileExists = false
  · rw [if_pos h1]
    rfl
  · rw [if_neg h1]
    by_cases h2 : inp.suffix ∈ validSuffixes
    · rw [if_pos h2]
      cases hvm : mapOpt loadVm inp.vmRows with
      | none =>
        simp only [hvm]
        rfl
      | some vms =>
        simp only [hvm, hser vms]
        rfl
    · rw [if_neg h2]
      rfl

/-- C5 witness: a catalog row with the unknown edition `Ultimate` aborts
the run even with zero VM rows. -/
theorem C5_unknown_edition_aborts_witness :
    isOkRun (main ⟨"vmh.tsv", true, ".tsv", [], [⟨"FeatX", some 1, "Ultimate"⟩]⟩) = false :=
  C5_unknown_edition_aborts ⟨"vmh.tsv", true, ".tsv", [], [⟨"FeatX", some 1, "Ultimate"⟩]⟩
    ⟨"FeatX", 1, "Ultimate"⟩ (by decide) (by decide)

/-- C6: the claim fails on the code — line 89 passes `sep="\t"` for every
input (`inputSep`), while the spec's extension-selected delimiter
(`specSep`) would be `","` for `.csv`; moreover the tab-based `skip_rows`
pre-pass marks every line of a comma-delimited `.csv` (which contains no
tab) for skipping, so its data can never be parsed into the `Name` and
`NsxFInt` columns, even though the extension check of line 84 accepts
`.csv`. -/
theorem C6_sep_is_always_tab :
    (".csv" ∈ validSuffixes) ∧
    inputSep ".csv" = "\t" ∧
    specSep ".csv" = "," ∧
    inputSep ".csv" ≠ specSep ".csv" ∧
    skip_rows ["Name,NsxFInt", "vm1,4"] = [0, 1] := by
  decide

/-- C7 counterexample: in the table `["a\tb\tc", "d\te\tf", "g\th"]` the
modal delimiter count is 2 and line 2's delimiter count is 1 — different —
yet `skip_rows` excludes nothing: the pre-pass never compares against the
mode, it only drops lines containing no tab at all. -/
theorem C7_counterexample :
    skip_rows ["a\tb\tc", "d\te\tf", "g\th"] = [] ∧
    tabSplitCount "g\th" - 1 = 1 ∧
    modalTabCount ["a\tb\tc", "d\te\tf", "g\th"] = 2 ∧
    (2 : Nat) ∉ skip_rows ["a\tb\tc", "d\te\tf", "g\th"] := by
  decide

/-- C7 amended: a physical line is excluded before structured parsing iff
it contains no delimiter (tab) character at all, i.e.
`len(line.split("\t")) == 1`; consequently a table whose every line
contains at least one tab skips zero rows. -/
theorem C7_amended_skip_rule (lines : List String) :
    (∀ i : Nat, i ∈ skip_rows lines ↔
      i < lines.length ∧ tabSplitCount (lines.getD i "") = 1) ∧
    ((∀ l ∈ lines, tabSplitCount l ≠ 1) → skip_rows lines = []) := by
  constructor
  · intro i
    unfold skip_rows
    rw [skipRowsAux_mem]
    constructor
    · rintro ⟨k, hk, hik, hkc⟩
      obtain rfl : i = k := by omega
      exact ⟨hk, hkc⟩
    · rintro ⟨h1, h2⟩
      exact ⟨i, h1, by omega, h2⟩
  · exact fun h => skipRowsAux_nil_of_no_hit h

/-- C7 amended witness: a well-formed two-column tab table skips zero
rows. -/
theorem C7_amended_skip_rule_witness :
    skip_rows ["Name\tNsxFInt", "vm1\t4"] = [] :=
  (C7_amended_skip_rule ["Name\tNsxFInt", "vm1\t4"]).2 (by decide)

/-- C8: when the input file does not exist, or exists with an extension
other than `.csv`/`.tsv`, `main` stops at the checks of lines 82-85 with a
`FATAL:` message naming the offending path, and no output table is
produced. -/
theorem C8_input_errors_fatal (inp : ProgInput)
    (h : inp.fileExists = false ∨ inp.suffix ∉ validSuffixes) :
    (main inp = Except.error ("FATAL: Input file " ++ inp.path ++ " does not exist.") ∨
      main inp = Except.error ("FATAL: Input file " ++ inp.path ++ " is not CSV or TSV.")) ∧
    isOkRun (main inp) = false := by
  unfold main
  rcases h with h1 | h1
  · rw [if_pos h1]
    exact ⟨Or.inl rfl, rfl⟩
  · by_cases h2 : inp.fileExists = false
    · rw [if_pos h2]
      exact ⟨Or.inl rfl, rfl⟩
    · rw [if_neg h2, if_neg h1]
      exact ⟨Or.inr rfl, rfl⟩

/-- C8 witness: Scenario 5 of the spec — an existing `.txt` input is
fatal, with the `FATAL:` line naming the path, and produces no output. -/
theorem C8_input_errors_fatal_witness :
    (main ⟨"vmh.txt", true, ".txt", [], []⟩ =
        Except.error ("FATAL: Input file " ++ "vmh.txt" ++ " does not exist.") ∨
      main ⟨"vmh.txt", true, ".txt", [], []⟩ =
        Except.error ("FATAL: Input file " ++ "vmh.txt" ++ " is not CSV or TSV.")) ∧
    isOkRun (main ⟨"vmh.txt", true, ".txt", [], []⟩) = false :=
  C8_input_errors_fatal ⟨"vmh.txt", true, ".txt", [], []⟩ (Or.inr (by decide))

/-- C9 counterexample: a raw catalog row with every field missing is
dropped, leaving an empty catalog — and with one VM row the run does NOT
complete normally: the row maximum over zero feature columns is NaN
(`rowMax [] = none`), `editions[NaN]` dies, and `main` ends in error. -/
theorem C9_counterexample :
    loadCatalog [⟨"", none, ""⟩] = [] ∧
    serializeTable [⟨"vm1", 4⟩] [] = none ∧
    isOkRun (main ⟨"vmh.tsv", true, ".tsv", [⟨"vm1", some "4"⟩], [⟨"", none, ""⟩]⟩) = false := by
  decide

/-- C9 amended: an all-dropped catalog is not detected as an error by the
loader itself (`loadCatalog` silently returns the empty catalog); with
zero VM rows the run completes and writes a table with zero feature
columns, but with at least one VM row the per-row edition resolution is
undefined (pandas max over zero columns is NaN) and the run aborts instead
of completing normally. -/
theorem C9_amended_empty_catalog (rows : List RawCatRow)
    (hdrop : ∀ r ∈ rows, r.feature_name = "" ∨ r.nsxfint = none ∨ r.edition = "") :
    loadCatalog rows = [] ∧
    serializeTable [] (loadCatalog rows) = some [["Name", "NsxFInt", "NSX Edition"]] ∧
    ∀ (vm : VM) (vms : List VM), serializeTable (vm :: vms) (loadCatalog rows) = none := by
  have hcat : loadCatalog rows = [] := by
    unfold loadCatalog
    rw [List.filterMap_eq_nil]
    intro r hr
    rcases hdrop r hr with h | h | h
    · simp [toNa, h]
    · cases htn : toNa r.feature_name <;> simp [htn, h]
    · cases htn : toNa r.feature_name <;> cases hb : r.nsxfint <;>
        simp [htn, hb, toNa, h]
  refine ⟨hcat, ?_, ?_⟩
  · rw [hcat]
    decide
  · intro vm vms
    rw [hcat]
    rfl

/-- C9 amended witness: the all-dropped catalog completes only for the
empty VM list, and dies as soon as one VM row is present. -/
theorem C9_amended_empty_catalog_witness :
    loadCatalog [⟨"", none, ""⟩] = [] ∧
    serializeTable [] (loadCatalog [⟨"", none, ""⟩]) =
      some [["Name", "NsxFInt", "NSX Edition"]] ∧
    serializeTable [⟨"v", 0⟩] (loadCatalog [⟨"", none, ""⟩]) = none := by
  have h := C9_amended_empty_catalog [⟨"", none, ""⟩] (by decide)
  exact ⟨h.1, h.2.1, h.2.2 ⟨"v", 0⟩ []⟩

/-- C10: the loader does not enforce non-negativity of the usage bitmask —
any cell text parsing as a negative integer is accepted as-is (the `"-"`
placeholder branch cannot fire, since `"-"` does not parse as an integer)
— and the resolver applies the activation rule
`(usage_mask AND bit_value) > 0` to the negative mask via two's-complement
AND, producing a defined output row under the usual catalog invariants
(recognized editions, nonempty catalog, names catalog-unique and none a
reserved output column, so the live mask stays intact and line 116 cannot
be fed a blanked cell). -/
theorem C10_negative_mask_total (nm s : String) (n : Int)
    (hparse : parseInt s = some n) (hneg : n < 0)
    (feats : List Feature)
    (hval : ∀ f ∈ feats, f.edition ∈ editions)
    (hnd : (feats.map Feature.feature_name).Nodup)
    (hne : feats ≠ [])
    (hres : ∀ f ∈ feats, f.feature_name ∉ reservedCols) :
    loadVm ⟨nm, some s⟩ = some ⟨nm, n⟩ ∧
    resolveRow feats ⟨nm, n⟩ = some (nm :: toString n ::
      feats.map (fun f => present (featRankD n f)) ++
      [editions.getD ((feats.map (featRankD n)).foldr Nat.max 0) ""]) := by
  constructor
  · have hs : ¬ s = "-" := by
      intro he
      rw [he, show parseInt "-" = none from by decide] at hparse
      exact Option.noConfusion hparse
    show (if s = "-" then some (⟨nm, 0⟩ : VM)
      else (parseInt s).map fun k => (⟨nm, k⟩ : VM)) = some ⟨nm, n⟩
    rw [if_neg hs, hparse]
    rfl
  · exact (resolveRow_eq hval hnd hne hres).1

/-- C10 witness: the mask text `"-1"` loads as the negative mask `-1`,
which activates bit 1 (`-1 AND 1 = 1 > 0`) and yields a defined row. -/
theorem C10_negative_mask_total_witness :
    loadVm ⟨"vm", some "-1"⟩ = some ⟨"vm", -1⟩ ∧
    resolveRow [⟨"FeatN", 1, "Base"⟩] ⟨"vm", -1⟩ = some ["vm", "-1", "True", "Base"] := by
  have h := C10_negative_mask_total "vm" "-1" (-1) (by decide) (by decide)
      [⟨"FeatN", 1, "Base"⟩] (by decide) (by decide) (by decide) (by decide)
  refine ⟨h.1, h.2.trans ?_⟩
  have hfr : featRankD (-1) (⟨"FeatN", 1, "Base"⟩ : Feature) = 1 := by
    have hland : Int.land (-1) (1 : Int) = 1 := neg_one_land 1
    unfold featRankD
    rw [show (⟨"FeatN", 1, "Base"⟩ : Feature).nsxfint = (1 : Int) from rfl, hland,
      if_pos (by decide : (0 : Int) < 1)]
    decide
  simp only [List.map_cons, List.map_nil, hfr, List.foldr_cons, List.foldr_nil]
  decide

end Nsxfint
